import Mathlib

/-!
Shallow embedding of the physics core of `src/main.c` (double pendulum):
the state model (`Body`, `Vec4`), the equation-of-motion evaluator
(`lagrange`, built from `accel_1`, `accel_2`, `force_1`, `force_2`),
the RK4 integrator (`updatePositions`), the energy diagnostics
(`getPotential`, `getKinetic`) and the trail ring buffer
(`Trail`, `appendToTrail`).  Machine `long double` arithmetic is modelled
over the real numbers; C struct mutation becomes explicit record update.
-/

namespace DoublePendulum

/-- Color struct from `src/main.c` (rendering metadata, carried along). -/
structure Color where
  r : Int
  g : Int
  b : Int
  a : Int

/-- Body struct from `src/main.c`: length `l`, mass `m`, angle `t`,
angular velocity `w`, and a color. -/
structure Body where
  l : ℝ
  m : ℝ
  t : ℝ
  w : ℝ
  color : Color

/-- The 4-dimensional state / derivative vector `(θ_A, θ_B, ω_A, ω_B)`,
mirroring the `long double [4]` arrays `y`, `k`, `tmp` of `src/main.c`. -/
@[ext]
structure Vec4 where
  y0 : ℝ
  y1 : ℝ
  y2 : ℝ
  y3 : ℝ

/-- Gravitational constant selected in `src/main.c` (`#define G 9.78`). -/
noncomputable def G : ℝ := 9.78

/-- Fixed timestep (`#define DT 0.01`). -/
noncomputable def DT : ℝ := 0.01

/-- Intermediate `accel_1` of `lagrange` (src/main.c line 92). -/
noncomputable def accel_1 (a b : Body) (y : Vec4) : ℝ :=
  b.l / a.l * (b.m / (a.m + b.m)) * Real.cos (y.y0 - y.y1)

/-- Intermediate `accel_2` of `lagrange` (src/main.c line 93). -/
noncomputable def accel_2 (a b : Body) (y : Vec4) : ℝ :=
  a.l / b.l * Real.cos (y.y0 - y.y1)

/-- Intermediate `force_1` of `lagrange` (src/main.c lines 95-97). -/
noncomputable def force_1 (a b : Body) (y : Vec4) : ℝ :=
  -(b.l / a.l) * (b.m / (a.m + b.m)) * (y.y3 * y.y3) * Real.sin (y.y0 - y.y1) -
    G / a.l * Real.sin y.y0

/-- Intermediate `force_2` of `lagrange` (src/main.c lines 98-99).  Note the
source reads the live field `a->w` here, not the component `y[2]` of the
vector passed in. -/
noncomputable def force_2 (a b : Body) (y : Vec4) : ℝ :=
  a.l / b.l * (a.w * a.w) * Real.sin (y.y0 - y.y1) - G / b.l * Real.sin y.y1

/-- The equation-of-motion evaluator `lagrange` of `src/main.c`
(lines 86-108): fills `k` from the state vector `y`. -/
noncomputable def lagrange (a b : Body) (y : Vec4) : Vec4 :=
  let g1 := (force_1 a b y - accel_1 a b y * force_2 a b y) /
      (1 - accel_1 a b y * accel_2 a b y)
  let g2 := (force_2 a b y - accel_2 a b y * force_1 a b y) /
      (1 - accel_1 a b y * accel_2 a b y)
  ⟨y.y2, y.y3, g1, g2⟩

/-- The RK4 integrator `updatePositions` of `src/main.c` (lines 110-139):
returns the two bodies with `t` and `w` advanced by one step of size `DT`. -/
noncomputable def updatePositions (a b : Body) : Body × Body :=
  let y : Vec4 := ⟨a.t, b.t, a.w, b.w⟩
  let k1 := lagrange a b y
  let t1 : Vec4 := ⟨y.y0 + DT * k1.y0 / 2, y.y1 + DT * k1.y1 / 2,
                    y.y2 + DT * k1.y2 / 2, y.y3 + DT * k1.y3 / 2⟩
  let k2 := lagrange a b t1
  let t2 : Vec4 := ⟨y.y0 + DT * k2.y0 / 2, y.y1 + DT * k2.y1 / 2,
                    y.y2 + DT * k2.y2 / 2, y.y3 + DT * k2.y3 / 2⟩
  let k3 := lagrange a b t2
  let t3 : Vec4 := ⟨y.y0 + DT * k3.y0, y.y1 + DT * k3.y1,
                    y.y2 + DT * k3.y2, y.y3 + DT * k3.y3⟩
  let k4 := lagrange a b t3
  ({ a with
      t := a.t + 1 / 6 * DT * (k1.y0 + 2 * k2.y0 + 2 * k3.y0 + k4.y0)
      w := a.w + 1 / 6 * DT * (k1.y2 + 2 * k2.y2 + 2 * k3.y2 + k4.y2) },
   { b with
      t := b.t + 1 / 6 * DT * (k1.y1 + 2 * k2.y1 + 2 * k3.y1 + k4.y1)
      w := b.w + 1 / 6 * DT * (k1.y3 + 2 * k2.y3 + 2 * k3.y3 + k4.y3) })

/-- One simulation step on a pair of bodies (the per-tick call
`updatePositions(&a1, &b1)` in the main loop). -/
noncomputable def step (p : Body × Body) : Body × Body :=
  updatePositions p.1 p.2

/-- The energy diagnostic `getPotential` of `src/main.c` (lines 67-72). -/
noncomputable def getPotential (a b : Body) : ℝ :=
  let y1 := -a.l * Real.cos a.t
  let y2 := y1 - b.l * Real.cos b.t
  a.m * G * y1 + b.m * G * y2

/-- The energy diagnostic `getKinetic` of `src/main.c` (lines 74-84). -/
noncomputable def getKinetic (a b : Body) : ℝ :=
  let av2 := (a.l * a.w) ^ 2
  let bv2 := (b.l * b.w) ^ 2
  0.5 * a.m * av2 +
    0.5 * b.m * (av2 + bv2 + 2 * a.l * b.l * a.w * b.w * Real.cos (a.t - b.t))

/-- The State Vector of the two links, `(θ_A, θ_B, ω_A, ω_B)`. -/
noncomputable def stateVec (a b : Body) : Vec4 :=
  ⟨a.t, b.t, a.w, b.w⟩

/-- Spec-side evaluator, written from the closed form of spec §4.1: identical
to `lagrange` except that every ω in the force terms is taken from the
passed-in vector `y` — in particular the ω_A² factor of `forceB` is `y.y2`,
where the source uses the live field `a->w`. -/
noncomputable def lagrangeSpec (a b : Body) (y : Vec4) : Vec4 :=
  let coefA := b.l / a.l * (b.m / (a.m + b.m)) * Real.cos (y.y0 - y.y1)
  let coefB := a.l / b.l * Real.cos (y.y0 - y.y1)
  let forceA := -(b.l / a.l) * (b.m / (a.m + b.m)) * (y.y3 * y.y3) *
      Real.sin (y.y0 - y.y1) - G / a.l * Real.sin y.y0
  let forceB := a.l / b.l * (y.y2 * y.y2) * Real.sin (y.y0 - y.y1) -
      G / b.l * Real.sin y.y1
  ⟨y.y2, y.y3,
    (forceA - coefA * forceB) / (1 - coefA * coefB),
    (forceB - coefB * forceA) / (1 - coefA * coefB)⟩

/-- Generic classical RK4 step in the shape of spec §4.2:
`k1 = f(y)`, `k2 = f(y + dt/2 k1)`, `k3 = f(y + dt/2 k2)`,
`k4 = f(y + dt k3)`, `y' = y + dt/6 (k1 + 2 k2 + 2 k3 + k4)`. -/
noncomputable def rk4Step (f : Vec4 → Vec4) (dt : ℝ) (y : Vec4) : Vec4 :=
  let k1 := f y
  let k2 := f ⟨y.y0 + dt / 2 * k1.y0, y.y1 + dt / 2 * k1.y1,
               y.y2 + dt / 2 * k1.y2, y.y3 + dt / 2 * k1.y3⟩
  let k3 := f ⟨y.y0 + dt / 2 * k2.y0, y.y1 + dt / 2 * k2.y1,
               y.y2 + dt / 2 * k2.y2, y.y3 + dt / 2 * k2.y3⟩
  let k4 := f ⟨y.y0 + dt * k3.y0, y.y1 + dt * k3.y1,
               y.y2 + dt * k3.y2, y.y3 + dt * k3.y3⟩
  ⟨y.y0 + dt / 6 * (k1.y0 + 2 * k2.y0 + 2 * k3.y0 + k4.y0),
   y.y1 + dt / 6 * (k1.y1 + 2 * k2.y1 + 2 * k3.y1 + k4.y1),
   y.y2 + dt / 6 * (k1.y2 + 2 * k2.y2 + 2 * k3.y2 + k4.y2),
   y.y3 + dt / 6 * (k1.y3 + 2 * k2.y3 + 2 * k3.y3 + k4.y3)⟩

/-- Spec-side potential energy, written from spec §4.3. -/
noncomputable def potentialSpec (a b : Body) : ℝ :=
  a.m * G * (-a.l * Real.cos a.t) +
    b.m * G * (-a.l * Real.cos a.t - b.l * Real.cos b.t)

/-- Spec-side kinetic energy, written from spec §4.3. -/
noncomputable def kineticSpec (a b : Body) : ℝ :=
  0.5 * a.m * (a.l * a.w) ^ 2 +
    0.5 * b.m * ((a.l * a.w) ^ 2 + (b.l * b.w) ^ 2 +
      2 * a.l * b.l * a.w * b.w * Real.cos (a.t - b.t))

/-- Agreement of two bodies on the physical fields (length, mass, angle,
angular velocity), ignoring the presentation color. -/
def sameState (x y : Body) : Prop :=
  x.l = y.l ∧ x.m = y.m ∧ x.t = y.t ∧ x.w = y.w

/-- Trail capacity (`#define TRAIL_SIZE 1024`). -/
def TRAIL_SIZE : ℕ := 1024

/-- The `SDL_FPoint` payload stored in the trail. -/
structure FPoint where
  x : ℝ
  y : ℝ

/-- Trail struct from `src/main.c`: write cursor `idx`, count
`n_elements`, color, and the backing point array (modelled as a total
function on indices). -/
structure Trail where
  idx : ℕ
  n_elements : ℕ
  color : Color
  points : ℕ → FPoint

/-- The `appendToTrail` operation of `src/main.c` (lines 61-65): write at
the cursor, advance the cursor modulo `TRAIL_SIZE`, bump the count capped
at `TRAIL_SIZE`. -/
def appendToTrail (t : Trail) (pt : FPoint) : Trail :=
  { idx := (t.idx + 1) % TRAIL_SIZE
    n_elements := min (t.n_elements + 1) TRAIL_SIZE
    color := t.color
    points := Function.update t.points t.idx pt }

/-- The initial trail of `main` (`.n_elements = 0, .idx = 0`; the backing
array is zero-initialized by the designated initializer). -/
def trailInit (c : Color) : Trail :=
  { idx := 0, n_elements := 0, color := c, points := fun _ => ⟨0, 0⟩ }

/-- Folding a whole sequence of appends over a trail. -/
def appendAll (t : Trail) (ps : List FPoint) : Trail :=
  ps.foldl appendToTrail t

/-- The points the renderer consumes: indices `0 .. n_elements` of the
backing array (`SDL_RenderDrawPointsF(renderer, t->points, t->n_elements)`). -/
def snapshot (t : Trail) : List FPoint :=
  (List.range t.n_elements).map t.points

/-- Index, in the full append sequence of length `N`, of the last write
that landed in slot `j` of the ring. -/
def lastIdx (N j : ℕ) : ℕ :=
  j + TRAIL_SIZE * ((N - 1 - j) / TRAIL_SIZE)

/-- A throwaway color for concrete instantiations. -/
def black : Color := ⟨0, 0, 0, 0⟩

/-- A link at rest: unit length and mass, zero angle and velocity. -/
noncomputable def bodyRest : Body := ⟨1, 1, 0, 0, black⟩

/-- Same physical fields as `bodyRest`, different color. -/
noncomputable def bodyRestAlt : Body := ⟨1, 1, 0, 0, ⟨1, 2, 3, 4⟩⟩

/-- A link whose live `w` field is 1 while the state vector passed to the
evaluator carries ω_A = 0: exposes the live-field read in `force_2`. -/
noncomputable def aLive : Body := ⟨1, 1, 0, 1, black⟩

/-- A unit link at rest, partner of `aLive`. -/
noncomputable def bStill : Body := ⟨1, 1, 0, 0, black⟩

/-- State vector `(π/2, 0, 0, 0)`: its ω_A component is 0, disagreeing
with the live `w` field of `aLive`. -/
noncomputable def yQuarter : Vec4 := ⟨Real.pi / 2, 0, 0, 0⟩

/-- Body `a1` hard-coded in `main` (src/main.c lines 204-208). -/
noncomputable def a1init : Body :=
  ⟨1, 1, 1.8, 0, ⟨243, 139, 168, 255⟩⟩

/-- Body `b1` hard-coded in `main` (src/main.c lines 210-214). -/
noncomputable def b1init : Body :=
  ⟨1, 1, 1.0, 0, ⟨166, 227, 161, 255⟩⟩

/-! Helper lemmas (shared; none of these is the theorem of a claim). -/

/-- Componentwise equality of two explicit state vectors. -/
theorem vec4_congr {a0 a1 a2 a3 b0 b1 b2 b3 : ℝ} (h0 : a0 = b0) (h1 : a1 = b1)
    (h2 : a2 = b2) (h3 : a3 = b3) :
    (⟨a0, a1, a2, a3⟩ : Vec4) = ⟨b0, b1, b2, b3⟩ := by
  rw [h0, h1, h2, h3]

/-- The evaluator maps the zero state to the zero derivative vector,
whatever the two bodies are. -/
theorem lagrange_zero (a b : Body) : lagrange a b ⟨0, 0, 0, 0⟩ = ⟨0, 0, 0, 0⟩ := by
  simp [lagrange, force_1, force_2, accel_1, accel_2]

/-- The evaluator reads only the fields `l`, `m` of both bodies and `w` of
the first; bodies agreeing there give the same derivative. -/
theorem lagrange_congr (a a' b b' : Body) (h1 : a.l = a'.l) (h2 : a.m = a'.m)
    (h4 : a.w = a'.w) (h5 : b.l = b'.l) (h6 : b.m = b'.m) (y : Vec4) :
    lagrange a b y = lagrange a' b' y := by
  simp only [lagrange, force_1, force_2, accel_1, accel_2, h1, h2, h4, h5, h6]

/-- The integrator never touches length, mass or color. -/
theorem updatePositions_frame (a b : Body) :
    ((updatePositions a b).1.l = a.l ∧ (updatePositions a b).1.m = a.m ∧
      (updatePositions a b).1.color = a.color) ∧
    ((updatePositions a b).2.l = b.l ∧ (updatePositions a b).2.m = b.m ∧
      (updatePositions a b).2.color = b.color) :=
  ⟨⟨rfl, rfl, rfl⟩, rfl, rfl, rfl⟩

/-- One step preserves agreement of the physical fields between two runs. -/
theorem step_sameState {a a' b b' : Body} (ha : sameState a a') (hb : sameState b b') :
    sameState (step (a, b)).1 (step (a', b')).1 ∧
      sameState (step (a, b)).2 (step (a', b')).2 := by
  obtain ⟨h1, h2, h3, h4⟩ := ha
  obtain ⟨h5, h6, h7, h8⟩ := hb
  have hlag : ∀ y, lagrange a b y = lagrange a' b' y := fun y =>
    lagrange_congr a a' b b' h1 h2 h4 h5 h6 y
  refine ⟨⟨?_, ?_, ?_, ?_⟩, ?_, ?_, ?_, ?_⟩ <;>
    simp only [step, updatePositions, hlag, h1, h2, h3, h4, h5, h6, h7, h8]

/-! Claim theorems. -/

/-- C1 (code_bug evidence): at links of unit length and mass with live field
`a.w = 1` and state vector `(π/2, 0, 0, 0)` (so the ω_A component of `y` is
0), the shipped evaluator returns k3 = 1 while the §4.1 closed form — every
ω taken from the passed-in vector `y` — returns k3 = 0: `force_2` of the
source reads the live field `a->w`, not `y[2]`. -/
theorem lagrange_live_omega_bug :
    (lagrange aLive bStill yQuarter).y3 = 1 ∧
      (lagrangeSpec aLive bStill yQuarter).y3 = 0 := by
  constructor <;>
    norm_num [lagrange, lagrangeSpec, force_1, force_2, accel_1, accel_2,
      aLive, bStill, yQuarter, G, Real.sin_pi_div_two, Real.cos_pi_div_two]

/-- C2: one call to `updatePositions` advances the 4-vector state exactly as
one classical RK4 step of size `DT` with slope function the evaluator, with
stages `k1 = f(y)`, `k2 = f(y + dt/2 k1)`, `k3 = f(y + dt/2 k2)`,
`k4 = f(y + dt k3)` and the (1,2,2,1)/6 weighting. -/
theorem updatePositions_is_rk4 (a b : Body) :
    stateVec (updatePositions a b).1 (updatePositions a b).2 =
      rk4Step (lagrange a b) DT (stateVec a b) := by
  have harg : ∀ v0 v1 v2 v3 q0 q1 q2 q3 d : ℝ,
      (⟨v0 + d * q0 / 2, v1 + d * q1 / 2, v2 + d * q2 / 2, v3 + d * q3 / 2⟩ : Vec4) =
        ⟨v0 + d / 2 * q0, v1 + d / 2 * q1, v2 + d / 2 * q2, v3 + d / 2 * q3⟩ := by
    intro v0 v1 v2 v3 q0 q1 q2 q3 d
    exact vec4_congr (by ring) (by ring) (by ring) (by ring)
  simp only [updatePositions, rk4Step, stateVec, harg]
  exact vec4_congr (by ring) (by ring) (by ring) (by ring)

/-- C3: if both angles and both angular velocities are zero, the evaluator
returns the zero derivative vector and any number of integrator steps leaves
the two links unchanged. -/
theorem rest_equilibrium (a b : Body) (n : ℕ) (hat : a.t = 0) (hbt : b.t = 0)
    (haw : a.w = 0) (hbw : b.w = 0) :
    lagrange a b (stateVec a b) = ⟨0, 0, 0, 0⟩ ∧ step^[n] (a, b) = (a, b) := by
  have h1 : stateVec a b = ⟨0, 0, 0, 0⟩ := by
    simp [stateVec, hat, hbt, haw, hbw]
  have hfix : step (a, b) = (a, b) := by
    obtain ⟨al, am, ta, wa, ca⟩ := a
    obtain ⟨bl, bm, tb, wb, cb⟩ := b
    simp only at hat hbt haw hbw
    subst hat hbt haw hbw
    simp [step, updatePositions, lagrange_zero]
  exact ⟨by rw [h1]; exact lagrange_zero a b, Function.iterate_fixed hfix n⟩

/-- C3 witness: concrete instantiation at two resting unit links and three
steps. -/
theorem rest_equilibrium_witness :
    lagrange bodyRest bStill (stateVec bodyRest bStill) = ⟨0, 0, 0, 0⟩ ∧
      step^[3] (bodyRest, bStill) = (bodyRest, bStill) :=
  rest_equilibrium bodyRest bStill 3 rfl rfl rfl rfl

/-- C5: the two energy diagnostics compute exactly the closed forms of spec
§4.3 (they are pure functions of the two links by construction of the
embedding). -/
theorem energy_matches_spec (a b : Body) :
    getPotential a b = potentialSpec a b ∧ getKinetic a b = kineticSpec a b := by
  constructor
  · simp only [getPotential, potentialSpec]
  · simp only [getKinetic, kineticSpec]

/-- C6 counterexample: two identical resting unit links; the force
intermediates agree but `accel_1 = 1/2 ≠ 1 = accel_2`, refuting
`coefA == coefB`. -/
theorem symmetric_coef_counterexample :
    ¬ (force_1 bodyRest bodyRest (stateVec bodyRest bodyRest) =
         force_2 bodyRest bodyRest (stateVec bodyRest bodyRest) ∧
       accel_1 bodyRest bodyRest (stateVec bodyRest bodyRest) =
         accel_2 bodyRest bodyRest (stateVec bodyRest bodyRest)) := by
  rintro ⟨-, h⟩
  norm_num [accel_1, accel_2, bodyRest, stateVec] at h

/-- C6 amended: for links of identical length, mass, angle and angular
velocity (positive mass), evaluated at their own state vector, the force
intermediates agree, and the coupling coefficients satisfy
`accel_2 = 2 * accel_1` (not `accel_1 = accel_2`: the mass fraction appears
only in `accel_1`). -/
theorem symmetric_body_relations (a b : Body) (hl : a.l = b.l) (hm : a.m = b.m)
    (ht : a.t = b.t) (hw : a.w = b.w) (hm0 : 0 < a.m) :
    force_1 a b (stateVec a b) = force_2 a b (stateVec a b) ∧
      accel_2 a b (stateVec a b) = 2 * accel_1 a b (stateVec a b) := by
  constructor
  · simp [force_1, force_2, stateVec, ht, hw, hl]
  · have hm0b : (0 : ℝ) < b.m := hm ▸ hm0
    have hhalf : b.m / (b.m + b.m) = 1 / 2 := by
      rw [div_eq_div_iff (by positivity) (by norm_num)]
      ring
    simp only [accel_2, accel_1, stateVec, ht, hl, hm, sub_self, Real.cos_zero,
      mul_one, hhalf]
    ring

/-- C6 witness: the amended relations at two links that agree physically
but carry different colors. -/
theorem symmetric_body_relations_witness :
    (0 : ℝ) < bodyRest.m ∧
      (force_1 bodyRest bodyRestAlt (stateVec bodyRest bodyRestAlt) =
          force_2 bodyRest bodyRestAlt (stateVec bodyRest bodyRestAlt) ∧
        accel_2 bodyRest bodyRestAlt (stateVec bodyRest bodyRestAlt) =
          2 * accel_1 bodyRest bodyRestAlt (stateVec bodyRest bodyRestAlt)) :=
  ⟨by norm_num [bodyRest],
    symmetric_body_relations bodyRest bodyRestAlt rfl rfl rfl rfl
      (by norm_num [bodyRest])⟩

/-- C8: determinism across two runs — if the links of two runs agree on all
physical fields (color may differ), the state trajectories agree after any
number of integrator steps. -/
theorem integrator_deterministic (n : ℕ) (a a' b b' : Body)
    (ha : sameState a a') (hb : sameState b b') :
    stateVec (step^[n] (a, b)).1 (step^[n] (a, b)).2 =
      stateVec (step^[n] (a', b')).1 (step^[n] (a', b')).2 := by
  have key : ∀ m (x x' z z' : Body), sameState x x' → sameState z z' →
      sameState (step^[m] (x, z)).1 (step^[m] (x', z')).1 ∧
        sameState (step^[m] (x, z)).2 (step^[m] (x', z')).2 := by
    intro m
    induction m with
    | zero => intro x x' z z' hx hz; simpa using ⟨hx, hz⟩
    | succ m ih =>
      intro x x' z z' hx hz
      rw [Function.iterate_succ_apply, Function.iterate_succ_apply]
      have hs := step_sameState hx hz
      have h := ih (step (x, z)).1 (step (x', z')).1 (step (x, z)).2
        (step (x', z')).2 hs.1 hs.2
      simpa using h
  obtain ⟨⟨-, -, hta, hwa⟩, -, -, htb, hwb⟩ := key n a a' b b' ha hb
  simp [stateVec, hta, hwa, htb, hwb]

/-- C8 witness: two runs whose first links differ only in color, iterated
two steps. -/
theorem integrator_deterministic_witness :
    stateVec (step^[2] (bodyRest, aLive)).1 (step^[2] (bodyRest, aLive)).2 =
      stateVec (step^[2] (bodyRestAlt, aLive)).1 (step^[2] (bodyRestAlt, aLive)).2 :=
  integrator_deterministic 2 bodyRest bodyRestAlt aLive aLive
    ⟨rfl, rfl, rfl, rfl⟩ ⟨rfl, rfl, rfl, rfl⟩

/-- C9: the integrator mutates only `t` and `w`; length, mass and color of
both links are unchanged by a call. -/
theorem updatePositions_preserves_params (a b : Body) :
    ((updatePositions a b).1.l = a.l ∧ (updatePositions a b).1.m = a.m ∧
      (updatePositions a b).1.color = a.color) ∧
    ((updatePositions a b).2.l = b.l ∧ (updatePositions a b).2.m = b.m ∧
      (updatePositions a b).2.color = b.color) :=
  updatePositions_frame a b

/-- Full characterization of a trail built from the empty trail: the cursor
is the append count modulo capacity, the count saturates at the capacity,
and each live slot `j` holds the last appended point whose sequence index
landed in slot `j`. -/
theorem appendAll_inv (c : Color) (ps : List FPoint) :
    (appendAll (trailInit c) ps).idx = ps.length % TRAIL_SIZE ∧
    (appendAll (trailInit c) ps).n_elements = min ps.length TRAIL_SIZE ∧
    ∀ j, j < min ps.length TRAIL_SIZE →
      lastIdx ps.length j < ps.length ∧
        (appendAll (trailInit c) ps).points j =
          ps.getD (lastIdx ps.length j) ⟨0, 0⟩ := by
  have hT : TRAIL_SIZE = 1024 := rfl
  induction ps using List.reverseRecOn with
  | nil => simp [appendAll, trailInit]
  | append_singleton ps p ih =>
    obtain ⟨hidx, hn, hpts⟩ := ih
    have happ : appendAll (trailInit c) (ps ++ [p]) =
        appendToTrail (appendAll (trailInit c) ps) p := by
      simp [appendAll]
    have hlen : (ps ++ [p]).length = ps.length + 1 := by simp
    rw [happ, hlen]
    refine ⟨?_, ?_, ?_⟩
    · simp only [appendToTrail, hidx, hT]
      omega
    · simp only [appendToTrail, hn, hT]
      omega
    · intro j hj
      by_cases hcase : j = ps.length % TRAIL_SIZE
      · subst hcase
        have hli : lastIdx (ps.length + 1) (ps.length % TRAIL_SIZE) = ps.length := by
          simp only [lastIdx, hT]
          omega
        refine ⟨by omega, ?_⟩
        rw [hli]
        simp only [appendToTrail, hidx]
        rw [Function.update_same]
        rw [List.getD_eq_getElem _ _ (by simp)]
        simp
      · have hjN : j < min ps.length TRAIL_SIZE := by
          rw [hT] at *
          omega
        obtain ⟨hlt, hval⟩ := hpts j hjN
        have hli : lastIdx (ps.length + 1) j = lastIdx ps.length j := by
          simp only [lastIdx, hT] at *
          omega
        refine ⟨by omega, ?_⟩
        rw [hli]
        simp only [appendToTrail, hidx]
        rw [Function.update_noteq hcase, hval,
          List.getD_eq_getElem _ _ hlt,
          List.getD_eq_getElem _ _ (show lastIdx ps.length j < (ps ++ [p]).length by
            simp; omega)]
        exact (List.getElem_append_left hlt).symm

/-- A list element whose index is at least `m` belongs to the suffix
obtained by dropping the first `m` elements. -/
theorem getD_mem_drop (ps : List FPoint) (m i : ℕ) (him : m ≤ i)
    (hi : i < ps.length) : ps.getD i ⟨0, 0⟩ ∈ ps.drop m := by
  have hlen : i - m < (ps.drop m).length := by
    rw [List.length_drop]
    omega
  have heq : (ps.drop m).get ⟨i - m, hlen⟩ = ps.getD i ⟨0, 0⟩ := by
    rw [List.get_eq_getElem, List.getElem_drop,
      List.getD_eq_getElem _ _ hi]
    congr 1
    show m + (i - m) = i
    omega
  exact heq ▸ List.get_mem _ _ _

/-- C4: ring-buffer behaviour of the trail.  Starting from the empty trail,
after appending the list `ps` (of length `N`): the count is `min N C` (so
`count ≤ C` always), the cursor is `N mod C`, each of the most recent
`min N C` appended points is retained — the point of sequence index `i` sits
in slot `i mod C`, so in particular the C-th-from-last is present — and
every retained point read by a snapshot comes from the most recent
`min N C` appends, so the (C+1)-th-from-last write survives only if its
value also occurs among the last C. -/
theorem trail_ring_buffer (c : Color) (ps : List FPoint) :
    (appendAll (trailInit c) ps).idx = ps.length % TRAIL_SIZE ∧
    (appendAll (trailInit c) ps).n_elements = min ps.length TRAIL_SIZE ∧
    (∀ i, i < ps.length → ps.length ≤ i + TRAIL_SIZE →
      (appendAll (trailInit c) ps).points (i % TRAIL_SIZE) = ps.getD i ⟨0, 0⟩) ∧
    (∀ q, q ∈ snapshot (appendAll (trailInit c) ps) →
      q ∈ ps.drop (ps.length - TRAIL_SIZE)) := by
  obtain ⟨hidx, hn, hpts⟩ := appendAll_inv c ps
  have hT : TRAIL_SIZE = 1024 := rfl
  refine ⟨hidx, hn, ?_, ?_⟩
  · intro i hi hitail
    have hj : i % TRAIL_SIZE < min ps.length TRAIL_SIZE := by
      rw [hT] at *
      omega
    obtain ⟨hlt, hval⟩ := hpts _ hj
    have hli : lastIdx ps.length (i % TRAIL_SIZE) = i := by
      simp only [lastIdx, hT] at *
      omega
    rw [hval, hli]
  · intro q hq
    simp only [snapshot, List.mem_map, List.mem_range] at hq
    obtain ⟨j, hjlt, hjq⟩ := hq
    rw [hn] at hjlt
    obtain ⟨hlt, hval⟩ := hpts j hjlt
    rw [← hjq, hval]
    refine getD_mem_drop ps _ _ ?_ hlt
    simp only [lastIdx, hT] at *
    omega

/-- C4 witness: a single append retains its point in slot 0 with count 1. -/
theorem trail_ring_buffer_witness :
    (appendAll (trailInit black) [⟨1, 2⟩]).n_elements =
        min ([⟨1, 2⟩] : List FPoint).length TRAIL_SIZE ∧
      (appendAll (trailInit black) [⟨1, 2⟩]).points (0 % TRAIL_SIZE) =
        ([⟨1, 2⟩] : List FPoint).getD 0 ⟨0, 0⟩ :=
  ⟨(trail_ring_buffer black [⟨1, 2⟩]).2.1,
    (trail_ring_buffer black [⟨1, 2⟩]).2.2.1 0 (by simp) (by simp [TRAIL_SIZE])⟩

/-- C10: every sequence of appends starting from the initial trail keeps the
cursor strictly below `TRAIL_SIZE` and the count at most `TRAIL_SIZE`
(both are naturals, hence nonnegative); since an append writes the backing
array exactly at the current cursor, every such write is in bounds. -/
theorem trail_write_in_bounds (c : Color) (ps : List FPoint) :
    (appendAll (trailInit c) ps).idx < TRAIL_SIZE ∧
      (appendAll (trailInit c) ps).n_elements ≤ TRAIL_SIZE := by
  obtain ⟨hidx, hn, -⟩ := appendAll_inv c ps
  have hT : TRAIL_SIZE = 1024 := rfl
  rw [hidx, hn]
  constructor
  · rw [hT]
    omega
  · omega

/-- Monotonicity of the cubic lower-bound polynomial of
`Real.sin_gt_sub_cube` on the unit interval. -/
theorem sub_cube_mono {lo x : ℝ} (h0 : 0 ≤ lo) (hl : lo ≤ x) (hx : x ≤ 1) :
    lo - lo ^ 3 / 4 ≤ x - x ^ 3 / 4 := by
  have hx0 : 0 ≤ x := h0.trans hl
  have e1 : x * x ≤ 1 * 1 := mul_le_mul hx hx hx0 zero_le_one
  have e2 : lo * x ≤ 1 * 1 := mul_le_mul (hl.trans hx) hx hx0 zero_le_one
  have e3 : lo * lo ≤ 1 * 1 := mul_le_mul (hl.trans hx) (hl.trans hx) h0 zero_le_one
  have key : 0 ≤ (x - lo) * (4 - (x ^ 2 + lo * x + lo ^ 2)) :=
    mul_nonneg (by linarith) (by nlinarith [e1, e2, e3])
  nlinarith [key]

set_option maxHeartbeats 2000000 in
/-- Interval bounds for the evaluator on the concrete scenario: for unit
links with live field `a.w = 0` and any state vector in a small box around
`(1.8, 1, 0, 0)`, both angular-acceleration outputs are bounded negative. -/
theorem lagrange_bounds (a b : Body) (y : Vec4)
    (hal : a.l = 1) (ham : a.m = 1) (hbl : b.l = 1) (hbm : b.m = 1)
    (haw : a.w = 0)
    (h0l : 1.79 ≤ y.y0) (h0u : y.y0 ≤ 1.8)
    (h1l : 0.99 ≤ y.y1) (h1u : y.y1 ≤ 1)
    (h3l : -0.1 ≤ y.y3) (h3u : y.y3 ≤ 0) :
    ((-10 : ℝ) ≤ (lagrange a b y).y2 ∧ (lagrange a b y).y2 ≤ -5) ∧
      ((-6 : ℝ) ≤ (lagrange a b y).y3 ∧ (lagrange a b y).y3 ≤ -(1/10)) := by
  have hΔl : (0.79 : ℝ) ≤ y.y0 - y.y1 := by linarith only [h0l, h1u]
  have hΔu : y.y0 - y.y1 ≤ 0.81 := by linarith only [h0u, h1l]
  -- sine of the angle difference
  have hsd := @Real.sin_gt_sub_cube (y.y0 - y.y1) (by linarith only [hΔl]) (by linarith only [hΔu])
  have hsdm := sub_cube_mono (show (0 : ℝ) ≤ 0.79 by norm_num) hΔl (by linarith only [hΔu])
  have hsdl : (0.666 : ℝ) ≤ Real.sin (y.y0 - y.y1) := by linarith only [hsd, hsdm]
  have hsdlt := Real.sin_lt (show (0 : ℝ) < y.y0 - y.y1 by linarith only [hΔl])
  have hsdu : Real.sin (y.y0 - y.y1) ≤ 0.81 := by linarith only [hsdlt, hΔu]
  -- cosine of the angle difference via the half angle
  have hcde : Real.cos (y.y0 - y.y1) =
      1 - 2 * Real.sin ((y.y0 - y.y1) / 2) ^ 2 := by
    conv_lhs => rw [show y.y0 - y.y1 = 2 * ((y.y0 - y.y1) / 2) by ring]
    rw [Real.cos_two_mul, Real.cos_sq']
    ring
  have hsd2 := @Real.sin_gt_sub_cube ((y.y0 - y.y1) / 2) (by linarith only [hΔl]) (by linarith only [hΔu])
  have hsd2m := sub_cube_mono (show (0 : ℝ) ≤ 0.395 by norm_num)
    (show (0.395 : ℝ) ≤ (y.y0 - y.y1) / 2 by linarith only [hΔl]) (by linarith only [hΔu])
  have hsd2l : (0.379 : ℝ) ≤ Real.sin ((y.y0 - y.y1) / 2) := by linarith only [hsd2, hsd2m]
  have hsd2lt := Real.sin_lt (show (0 : ℝ) < (y.y0 - y.y1) / 2 by linarith only [hΔl])
  have hsd2u : Real.sin ((y.y0 - y.y1) / 2) ≤ 0.405 := by linarith only [hsd2lt, hΔu]
  have hsd2sqU := pow_le_pow_left₀ (show (0 : ℝ) ≤ Real.sin ((y.y0 - y.y1) / 2)
    by linarith only [hsd2l]) hsd2u 2
  have hsd2sqL := pow_le_pow_left₀ (show (0 : ℝ) ≤ 0.379 by norm_num) hsd2l 2
  have hcdl : (0.6719 : ℝ) ≤ Real.cos (y.y0 - y.y1) := by
    rw [hcde]
    linarith only [hsd2sqU]
  have hcdu : Real.cos (y.y0 - y.y1) ≤ 0.7128 := by
    rw [hcde]
    linarith only [hsd2sqL]
  -- sine of θ_B
  have hs1 := @Real.sin_gt_sub_cube y.y1 (by linarith only [h1l]) (by linarith only [h1u])
  have hs1m := sub_cube_mono (show (0 : ℝ) ≤ 0.99 by norm_num) h1l h1u
  have hs1l : (0.747 : ℝ) ≤ Real.sin y.y1 := by linarith only [hs1, hs1m]
  have hs1u : Real.sin y.y1 ≤ 1 := Real.sin_le_one _
  -- sine of θ_A via two half angles
  have hs0e : Real.sin y.y0 = 2 * Real.sin (y.y0 / 2) * Real.cos (y.y0 / 2) := by
    conv_lhs => rw [show y.y0 = 2 * (y.y0 / 2) by ring]
    exact Real.sin_two_mul _
  have hc2e : Real.cos (y.y0 / 2) = 1 - 2 * Real.sin (y.y0 / 4) ^ 2 := by
    conv_lhs => rw [show y.y0 / 2 = 2 * (y.y0 / 4) by ring]
    rw [Real.cos_two_mul, Real.cos_sq']
    ring
  have hq := @Real.sin_gt_sub_cube (y.y0 / 4) (by linarith only [h0l]) (by linarith only [h0u])
  have hqm := sub_cube_mono (show (0 : ℝ) ≤ 0.4475 by norm_num)
    (show (0.4475 : ℝ) ≤ y.y0 / 4 by linarith only [h0l]) (by linarith only [h0u])
  have hql : (0.425 : ℝ) ≤ Real.sin (y.y0 / 4) := by linarith only [hq, hqm]
  have hqlt := Real.sin_lt (show (0 : ℝ) < y.y0 / 4 by linarith only [h0l])
  have hqu : Real.sin (y.y0 / 4) ≤ 0.45 := by linarith only [hqlt, h0u]
  have hqsqU := pow_le_pow_left₀ (show (0 : ℝ) ≤ Real.sin (y.y0 / 4)
    by linarith only [hql]) hqu 2
  have hchl : (0.595 : ℝ) ≤ Real.cos (y.y0 / 2) := by
    rw [hc2e]
    linarith only [hqsqU]
  have hsh := @Real.sin_gt_sub_cube (y.y0 / 2) (by linarith only [h0l]) (by linarith only [h0u])
  have hshm := sub_cube_mono (show (0 : ℝ) ≤ 0.895 by norm_num)
    (show (0.895 : ℝ) ≤ y.y0 / 2 by linarith only [h0l]) (by linarith only [h0u])
  have hshl : (0.7157 : ℝ) ≤ Real.sin (y.y0 / 2) := by linarith only [hsh, hshm]
  have hs0l : (0.85 : ℝ) ≤ Real.sin y.y0 := by
    rw [hs0e]
    linarith only [mul_le_mul hshl hchl (by norm_num)
      (by linarith only [hshl] : (0 : ℝ) ≤ Real.sin (y.y0 / 2))]
  have hs0u : Real.sin y.y0 ≤ 1 := Real.sin_le_one _
  -- the squared angular velocity
  have hw3 : 0 ≤ y.y3 * y.y3 := mul_self_nonneg _
  have hw3u : y.y3 * y.y3 ≤ 0.01 := by
    nlinarith [mul_nonneg (neg_nonneg.2 h3u)
      (show (0 : ℝ) ≤ y.y3 + 0.1 by linarith only [h3l])]
  have hprod0 : (0 : ℝ) ≤ y.y3 * y.y3 * Real.sin (y.y0 - y.y1) :=
    mul_nonneg hw3 (by linarith only [hsdl])
  have hprodu : y.y3 * y.y3 * Real.sin (y.y0 - y.y1) ≤ 0.0081 := by
    have h := mul_le_mul hw3u hsdu
      (show (0 : ℝ) ≤ Real.sin (y.y0 - y.y1) by linarith only [hsdl])
      (show (0 : ℝ) ≤ 0.01 by norm_num)
    linarith only [h]
  -- bounds on the four intermediates
  have hA1l : (0.33595 : ℝ) ≤ accel_1 a b y := by
    simp only [accel_1, hal, ham, hbl, hbm]
    linarith only [hcdl]
  have hA1u : accel_1 a b y ≤ 0.3564 := by
    simp only [accel_1, hal, ham, hbl, hbm]
    linarith only [hcdu]
  have hA2l : (0.6719 : ℝ) ≤ accel_2 a b y := by
    simp only [accel_2, hal, hbl]
    linarith only [hcdl]
  have hA2u : accel_2 a b y ≤ 0.7128 := by
    simp only [accel_2, hal, hbl]
    linarith only [hcdu]
  have hF1l : (-9.785 : ℝ) ≤ force_1 a b y := by
    simp only [force_1, hal, ham, hbl, hbm, G]
    linarith only [hprod0, hprodu, hs0l, hs0u]
  have hF1u : force_1 a b y ≤ -8.313 := by
    simp only [force_1, hal, ham, hbl, hbm, G]
    linarith only [hprod0, hprodu, hs0l, hs0u]
  have hF2l : (-9.78 : ℝ) ≤ force_2 a b y := by
    simp only [force_2, hal, hbl, haw, G]
    linarith only [hs1l, hs1u]
  have hF2u : force_2 a b y ≤ -7.305 := by
    simp only [force_2, hal, hbl, haw, G]
    linarith only [hs1l, hs1u]
  -- denominator of the linear solve
  have hAA_u := mul_le_mul hA1u hA2u
    (show (0 : ℝ) ≤ accel_2 a b y by linarith only [hA2l]) (show (0 : ℝ) ≤ 0.3564 by norm_num)
  have hAA_l := mul_le_mul hA1l hA2l (show (0 : ℝ) ≤ 0.6719 by norm_num)
    (show (0 : ℝ) ≤ accel_1 a b y by linarith only [hA1l])
  have hDl : (0.7459 : ℝ) ≤ 1 - accel_1 a b y * accel_2 a b y := by
    linarith only [hAA_u]
  have hDu : 1 - accel_1 a b y * accel_2 a b y ≤ 0.7743 := by
    linarith only [hAA_l]
  have hDpos : (0 : ℝ) < 1 - accel_1 a b y * accel_2 a b y := by linarith only [hDl]
  -- numerators
  have p1 : (0 : ℝ) ≤ (0.3564 - accel_1 a b y) * (-(force_2 a b y)) :=
    mul_nonneg (by linarith only [hA1u]) (by linarith only [hF2u])
  have p2 : (0 : ℝ) ≤ (accel_1 a b y - 0.33595) * (-(force_2 a b y) - 7.305) :=
    mul_nonneg (by linarith only [hA1l]) (by linarith only [hF2u])
  have p3 : (0 : ℝ) ≤ (0.7128 - accel_2 a b y) * (-(force_1 a b y)) :=
    mul_nonneg (by linarith only [hA2u]) (by linarith only [hF1u])
  have p4 : (0 : ℝ) ≤ (accel_2 a b y - 0.6719) * (-(force_1 a b y) - 8.313) :=
    mul_nonneg (by linarith only [hA2l]) (by linarith only [hF1u])
  have hN1l : (-7.35 : ℝ) ≤ force_1 a b y - accel_1 a b y * force_2 a b y := by
    linarith only [p2, hF1l, hA1l, hF2u]
  have hN1u : force_1 a b y - accel_1 a b y * force_2 a b y ≤ -4.82 := by
    linarith only [p1, hF1u, hF2l]
  have hN2l : (-4.2 : ℝ) ≤ force_2 a b y - accel_2 a b y * force_1 a b y := by
    linarith only [p4, hF2l, hA2l, hF1u]
  have hN2u : force_2 a b y - accel_2 a b y * force_1 a b y ≤ -0.33 := by
    linarith only [p3, hF2u, hF1l]
  -- assemble the two quotients
  have hg1 : (lagrange a b y).y2 =
      (force_1 a b y - accel_1 a b y * force_2 a b y) /
        (1 - accel_1 a b y * accel_2 a b y) := rfl
  have hg2 : (lagrange a b y).y3 =
      (force_2 a b y - accel_2 a b y * force_1 a b y) /
        (1 - accel_1 a b y * accel_2 a b y) := rfl
  rw [hg1, hg2]
  refine ⟨⟨?_, ?_⟩, ?_, ?_⟩
  · rw [le_div_iff hDpos]
    linarith only [hDl, hDu, hN1l]
  · rw [div_le_iff hDpos]
    linarith only [hDl, hDu, hN1u]
  · rw [le_div_iff hDpos]
    linarith only [hDl, hDu, hN2l]
  · rw [div_le_iff hDpos]
    linarith only [hDl, hDu, hN2u]

set_option maxHeartbeats 2000000 in
/-- One RK4 step from the scenario of spec §8 (unit lengths and masses,
angles 1.8 and 1, zero velocities) drives both angular velocities negative,
changing them by at most 0.1 — an O(dt) amount. -/
theorem updatePositions_w_neg (a b : Body)
    (hal : a.l = 1) (ham : a.m = 1) (hbl : b.l = 1) (hbm : b.m = 1)
    (hat : a.t = 1.8) (hbt : b.t = 1) (haw : a.w = 0) (hbw : b.w = 0) :
    ((-(1/10) : ℝ) ≤ (updatePositions a b).1.w ∧ (updatePositions a b).1.w < 0) ∧
      ((-(6/100) : ℝ) ≤ (updatePositions a b).2.w ∧
        (updatePositions a b).2.w < 0) := by
  have hDT : DT = 0.01 := rfl
  set y : Vec4 := ⟨a.t, b.t, a.w, b.w⟩ with hy
  have hy0 : y.y0 = 1.8 := hat
  have hy1 : y.y1 = 1 := hbt
  have hy2 : y.y2 = 0 := haw
  have hy3 : y.y3 = 0 := hbw
  set k1 := lagrange a b y with hk1
  set t1 : Vec4 := ⟨y.y0 + DT * k1.y0 / 2, y.y1 + DT * k1.y1 / 2,
      y.y2 + DT * k1.y2 / 2, y.y3 + DT * k1.y3 / 2⟩ with ht1
  set k2 := lagrange a b t1 with hk2
  set t2 : Vec4 := ⟨y.y0 + DT * k2.y0 / 2, y.y1 + DT * k2.y1 / 2,
      y.y2 + DT * k2.y2 / 2, y.y3 + DT * k2.y3 / 2⟩ with ht2
  set k3 := lagrange a b t2 with hk3
  set t3 : Vec4 := ⟨y.y0 + DT * k3.y0, y.y1 + DT * k3.y1,
      y.y2 + DT * k3.y2, y.y3 + DT * k3.y3⟩ with ht3
  set k4 := lagrange a b t3 with hk4
  have hwa : (updatePositions a b).1.w =
      a.w + 1 / 6 * DT * (k1.y2 + 2 * k2.y2 + 2 * k3.y2 + k4.y2) := rfl
  have hwb : (updatePositions a b).2.w =
      b.w + 1 / 6 * DT * (k1.y3 + 2 * k2.y3 + 2 * k3.y3 + k4.y3) := rfl
  -- component equations, by definitional unfolding
  have ek1y0 : k1.y0 = y.y2 := rfl
  have ek1y1 : k1.y1 = y.y3 := rfl
  have ek2y0 : k2.y0 = t1.y2 := rfl
  have ek2y1 : k2.y1 = t1.y3 := rfl
  have ek3y0 : k3.y0 = t2.y2 := rfl
  have ek3y1 : k3.y1 = t2.y3 := rfl
  have et1y0 : t1.y0 = y.y0 + DT * k1.y0 / 2 := rfl
  have et1y1 : t1.y1 = y.y1 + DT * k1.y1 / 2 := rfl
  have et1y2 : t1.y2 = y.y2 + DT * k1.y2 / 2 := rfl
  have et1y3 : t1.y3 = y.y3 + DT * k1.y3 / 2 := rfl
  have et2y0 : t2.y0 = y.y0 + DT * k2.y0 / 2 := rfl
  have et2y1 : t2.y1 = y.y1 + DT * k2.y1 / 2 := rfl
  have et2y2 : t2.y2 = y.y2 + DT * k2.y2 / 2 := rfl
  have et2y3 : t2.y3 = y.y3 + DT * k2.y3 / 2 := rfl
  have et3y0 : t3.y0 = y.y0 + DT * k3.y0 := rfl
  have et3y1 : t3.y1 = y.y1 + DT * k3.y1 := rfl
  have et3y3 : t3.y3 = y.y3 + DT * k3.y3 := rfl
  clear_value y k1 t1 k2 t2 k3 t3 k4
  -- stage 1
  have hB1 := lagrange_bounds a b y hal ham hbl hbm haw
    (by rw [hy0]; norm_num) (le_of_eq hy0) (by rw [hy1]; norm_num)
    (le_of_eq hy1) (by rw [hy3]; norm_num) (le_of_eq hy3)
  rw [← hk1] at hB1
  obtain ⟨⟨h12l, h12u⟩, h13l, h13u⟩ := hB1
  -- stage 2
  have ht1y0 : t1.y0 = 1.8 := by
    rw [et1y0, ek1y0, hy0, hy2, hDT]
    norm_num
  have ht1y1 : t1.y1 = 1 := by
    rw [et1y1, ek1y1, hy1, hy3, hDT]
    norm_num
  have ht1y2l : -(5/100 : ℝ) ≤ t1.y2 := by
    rw [et1y2, hy2, hDT]
    linarith only [h12l]
  have ht1y2u : t1.y2 ≤ 0 := by
    rw [et1y2, hy2, hDT]
    linarith only [h12u]
  have ht1y3l : -(3/100 : ℝ) ≤ t1.y3 := by
    rw [et1y3, hy3, hDT]
    linarith only [h13l]
  have ht1y3u : t1.y3 ≤ 0 := by
    rw [et1y3, hy3, hDT]
    linarith only [h13u]
  have hB2 := lagrange_bounds a b t1 hal ham hbl hbm haw
    (by rw [ht1y0]; norm_num) (le_of_eq ht1y0) (by rw [ht1y1]; norm_num)
    (le_of_eq ht1y1) (by linarith only [ht1y3l]) ht1y3u
  rw [← hk2] at hB2
  obtain ⟨⟨h22l, h22u⟩, h23l, h23u⟩ := hB2
  -- stage 3
  have ht2y0l : (1.79 : ℝ) ≤ t2.y0 := by
    rw [et2y0, ek2y0, hy0, hDT]
    linarith only [ht1y2l]
  have ht2y0u : t2.y0 ≤ 1.8 := by
    rw [et2y0, ek2y0, hy0, hDT]
    linarith only [ht1y2u]
  have ht2y1l : (0.99 : ℝ) ≤ t2.y1 := by
    rw [et2y1, ek2y1, hy1, hDT]
    linarith only [ht1y3l]
  have ht2y1u : t2.y1 ≤ 1 := by
    rw [et2y1, ek2y1, hy1, hDT]
    linarith only [ht1y3u]
  have ht2y2l : -(5/100 : ℝ) ≤ t2.y2 := by
    rw [et2y2, hy2, hDT]
    linarith only [h22l]
  have ht2y2u : t2.y2 ≤ 0 := by
    rw [et2y2, hy2, hDT]
    linarith only [h22u]
  have ht2y3l : -(3/100 : ℝ) ≤ t2.y3 := by
    rw [et2y3, hy3, hDT]
    linarith only [h23l]
  have ht2y3u : t2.y3 ≤ 0 := by
    rw [et2y3, hy3, hDT]
    linarith only [h23u]
  have hB3 := lagrange_bounds a b t2 hal ham hbl hbm haw
    ht2y0l ht2y0u ht2y1l ht2y1u (by linarith only [ht2y3l]) ht2y3u
  rw [← hk3] at hB3
  obtain ⟨⟨h32l, h32u⟩, h33l, h33u⟩ := hB3
  -- stage 4
  have ht3y0l : (1.79 : ℝ) ≤ t3.y0 := by
    rw [et3y0, ek3y0, hy0, hDT]
    linarith only [ht2y2l]
  have ht3y0u : t3.y0 ≤ 1.8 := by
    rw [et3y0, ek3y0, hy0, hDT]
    linarith only [ht2y2u]
  have ht3y1l : (0.99 : ℝ) ≤ t3.y1 := by
    rw [et3y1, ek3y1, hy1, hDT]
    linarith only [ht2y3l]
  have ht3y1u : t3.y1 ≤ 1 := by
    rw [et3y1, ek3y1, hy1, hDT]
    linarith only [ht2y3u]
  have ht3y3l : (-0.1 : ℝ) ≤ t3.y3 := by
    rw [et3y3, hy3, hDT]
    linarith only [h33l]
  have ht3y3u : t3.y3 ≤ 0 := by
    rw [et3y3, hy3, hDT]
    linarith only [h33u]
  have hB4 := lagrange_bounds a b t3 hal ham hbl hbm haw
    ht3y0l ht3y0u ht3y1l ht3y1u ht3y3l ht3y3u
  rw [← hk4] at hB4
  obtain ⟨⟨h42l, h42u⟩, h43l, h43u⟩ := hB4
  -- combine
  refine ⟨⟨?_, ?_⟩, ?_, ?_⟩
  · rw [hwa, haw, hDT]
    linarith only [h12l, h22l, h32l, h42l]
  · rw [hwa, haw, hDT]
    linarith only [h12u, h22u, h32u, h42u]
  · rw [hwb, hbw, hDT]
    linarith only [h13l, h23l, h33l, h43l]
  · rw [hwb, hbw, hDT]
    linarith only [h13u, h23u, h33u, h43u]

/-- C7: from the initial conditions hard-coded in `main`
(`l = m = 1`, `θ_A = 1.8`, `θ_B = 1`, `ω = 0`, with `G = 9.78` and
`DT = 0.01`), exactly one integrator step makes both angular velocities
negative — both angles start moving toward 0 — and the change is O(dt)
(at most 0.1 in magnitude). -/
theorem first_step_velocities_negative :
    ((-(1/10) : ℝ) ≤ (updatePositions a1init b1init).1.w ∧
        (updatePositions a1init b1init).1.w < 0) ∧
      ((-(6/100) : ℝ) ≤ (updatePositions a1init b1init).2.w ∧
        (updatePositions a1init b1init).2.w < 0) :=
  updatePositions_w_neg a1init b1init rfl rfl rfl rfl rfl
    (by norm_num [b1init]) rfl rfl

end DoublePendulum
